import Mathlib

/-!
Verification of the BeyondChats article-ingestion pipeline.

This file is a shallow embedding of the core of the repository:
the article model utilities (word count, reading time, HTML sanitization),
the article repository (`ArticleRepository.ts`), the web scraper service
(`WebScraperService.ts`: pagination resolution, link extraction, article
content extraction and cleaning), and the ingestion orchestration loops of
`ScraperController.ts` and `scripts/scrapeArticles.ts`.

Strings are modelled as Lean `String`/`List Char`; JavaScript regular
expression passes are modelled as character-level scans with the same
left-to-right, non-overlapping match semantics as `String.prototype.replace`
with the `g` flag.  Recursions that consume a matched span use an explicit
fuel argument (always instantiated with the input length, which bounds the
number of scan steps) so that every definition is structurally recursive
and computable.
-/

namespace BeyondChats

/-- JavaScript `\s` class, modelled with Lean's ASCII whitespace test
(space, tab, carriage return, newline — the characters relevant here). -/
def jsWs (c : Char) : Bool := c.isWhitespace

/-- JavaScript regex `\w` word character: `[A-Za-z0-9_]`. -/
def isWordChar (c : Char) : Bool := c.isAlpha || c.isDigit || c = '_'

/-- Case-sensitive: `p` occurs at the front of `l`. -/
def startsChars : List Char → List Char → Bool
  | [], _ => true
  | _ :: _, [] => false
  | p :: ps, c :: cs => (p == c) && startsChars ps cs

/-- Case-insensitive: `p` occurs at the front of `l` (regex `i` flag). -/
def startsCI : List Char → List Char → Bool
  | [], _ => true
  | _ :: _, [] => false
  | p :: ps, c :: cs => (p.toLower == c.toLower) && startsCI ps cs

/-- `needle` occurs somewhere in `hay` (JavaScript `String.prototype.includes`). -/
def containsSub (needle : List Char) : List Char → Bool
  | [] => needle.isEmpty
  | c :: cs => startsChars needle (c :: cs) || containsSub needle cs

/-- `hay.includes(needle)` on `String`s. -/
def jsIncludes (hay needle : String) : Bool := containsSub needle.toList hay.toList

/-- `s.startsWith(p)` on `String`s. -/
def jsStartsWith (s p : String) : Bool := startsChars p.toList s.toList

/-!
## Article model utilities (`shared/src/models/Article`-style helpers, part_001)
-/

/-- Accumulating word splitter: returns the maximal runs of non-whitespace
characters of the input (`cur` is the reversed run being built).  The
composite JavaScript expression
`content.trim().split(/\s+/).filter(word => word.length > 0)`
yields exactly these runs. -/
def wordsAux : List Char → List Char → List (List Char)
  | cur, [] => if cur.isEmpty then [] else [cur.reverse]
  | cur, c :: cs =>
    if jsWs c then
      if cur.isEmpty then wordsAux [] cs else cur.reverse :: wordsAux [] cs
    else wordsAux (c :: cur) cs

/-- `calculateWordCount` (part_001 lines 93-95):
`content.trim().split(/\s+/).filter(word => word.length > 0).length`. -/
def calculateWordCount (content : String) : Nat :=
  (wordsAux [] content.toList).length

/-- `calculateReadingTime` (part_001 lines 97-100): `Math.ceil(wordCount / 200)`,
expressed as ceiling division on naturals. -/
def calculateReadingTime (wordCount : Nat) : Nat :=
  (wordCount + 199) / 200

/-- Scan for the first case-insensitive occurrence of `pat` and drop
everything up to and including it; `none` if `pat` does not occur.
`fuel` bounds the scan (callers pass the input length). -/
def dropThroughCI (pat : List Char) : Nat → List Char → Option (List Char)
  | 0, _ => none
  | _ + 1, [] => none
  | fuel + 1, c :: cs =>
    if startsCI pat (c :: cs) then some ((c :: cs).drop pat.length)
    else dropThroughCI pat fuel cs

/-- One attempted match of the block regex
`/<openTag\b[^<]*(?:(?!<closeTag>)<[^<]*)*closeTag/gi` at the front of `l`:
the match runs from `openTag` (followed by a `\b` word boundary) to the first
case-insensitive occurrence of `closeTag`; returns the remainder after the
match, or `none` when there is no match at this position. -/
def blockRemainder (openT closeT : List Char) (l : List Char) : Option (List Char) :=
  if startsCI openT l then
    let rest := l.drop openT.length
    match rest with
    | [] => none
    | r :: _ => if isWordChar r then none else dropThroughCI closeT rest.length rest
  else none

/-- Global removal of block matches (script / iframe blocks in
`sanitizeArticleContent`): left-to-right scan, each match removed, scanning
resuming after the removed span. -/
def removeBlocks (openT closeT : List Char) : Nat → List Char → List Char
  | 0, l => l
  | _ + 1, [] => []
  | fuel + 1, c :: cs =>
    match blockRemainder openT closeT (c :: cs) with
    | some rem => removeBlocks openT closeT fuel rem
    | none => c :: removeBlocks openT closeT fuel cs

/-- Global case-insensitive removal of the literal pattern `pat`
(the `/javascript:/gi` pass of `sanitizeArticleContent`). -/
def removeSub (pat : List Char) : Nat → List Char → List Char
  | 0, l => l
  | _ + 1, [] => []
  | fuel + 1, c :: cs =>
    if startsCI pat (c :: cs) then removeSub pat fuel ((c :: cs).drop pat.length)
    else c :: removeSub pat fuel cs

/-- One attempted match of `/on\w+\s*=/gi` at the front of the list: `on`
(case-insensitive), at least one word character, optional whitespace, `=`.
Returns the remainder after the match. -/
def handlerRemainder : List Char → Option (List Char)
  | o :: n :: rest =>
    if o.toLower == 'o' && n.toLower == 'n' then
      let wordRun := rest.takeWhile isWordChar
      if wordRun.isEmpty then none
      else
        match (rest.dropWhile isWordChar).dropWhile jsWs with
        | c :: tail => if c = '=' then some tail else none
        | [] => none
    else none
  | _ => none

/-- Global removal of inline-event-handler attribute heads (`/on\w+\s*=/gi`). -/
def removeHandlers : Nat → List Char → List Char
  | 0, l => l
  | _ + 1, [] => []
  | fuel + 1, c :: cs =>
    match handlerRemainder (c :: cs) with
    | some rem => removeHandlers fuel rem
    | none => c :: removeHandlers fuel cs

/-- Right trim of whitespace on a character list. -/
def trimRight : List Char → List Char
  | [] => []
  | c :: cs =>
    match trimRight cs with
    | [] => if jsWs c then [] else [c]
    | r => c :: r

/-- JavaScript `String.prototype.trim`: strip whitespace from both ends. -/
def trimBoth (l : List Char) : List Char := trimRight (l.dropWhile jsWs)

/-- JavaScript `String.prototype.trim` on `String`s. -/
def jsTrim (s : String) : String := String.mk (trimBoth s.toList)

/-- `sanitizeArticleContent` (part_001 lines 102-109): remove `<script>…</script>`
and `<iframe>…</iframe>` blocks, `javascript:` occurrences and inline event
handler heads (`on\w+\s*=`), then trim. -/
def sanitizeArticleContent (content : String) : String :=
  let l := content.toList
  let pass1 := removeBlocks "<script".toList "</script>".toList l.length l
  let pass2 := removeBlocks "<iframe".toList "</iframe>".toList pass1.length pass1
  let pass3 := removeSub "javascript:".toList pass2.length pass2
  let pass4 := removeHandlers pass3.length pass3
  String.mk (trimBoth pass4)

/-!
## Article store (`ArticleRepository.ts`) and ingestion loops
-/

/-- `CreateArticleData` (part_001 lines 20-25). -/
structure CreateArticleData where
  title : String
  content : String
  url : String
  tags : Option (List String)
deriving Repr, DecidableEq

/-- A persisted row of the `articles` table (the columns written by
`ArticleRepository.create`). -/
structure ArticleRow where
  id : Nat
  title : String
  content : String
  url : String
  word_count : Nat
  reading_time : Nat
  tags : List String
deriving Repr, DecidableEq

/-- The `articles` relation with its auto-increment id counter; the `url`
column carries a `UNIQUE` constraint (`createTables.ts` line 23). -/
structure DbState where
  rows : List ArticleRow
  nextId : Nat
deriving Repr, DecidableEq

/-- Storage-layer error: the uniqueness-constraint violation raised by MySQL
on a duplicate `url` insert. -/
inductive DbError
  | duplicateUrl
deriving Repr, DecidableEq

/-- `ArticleRepository.findByUrl`: `SELECT … FROM articles WHERE url = ?`. -/
def findByUrl (db : DbState) (url : String) : Option ArticleRow :=
  db.rows.find? (fun r => r.url == url)

/-- `ArticleRepository.create` (lines 17-56): sanitize the content, compute
word count and reading time from the sanitized content, and insert.  The
`INSERT` fails with a duplicate-key error when a row with the same `url`
already exists (the `UNIQUE` constraint). -/
def repoCreate (db : DbState) (data : CreateArticleData) :
    Except DbError (ArticleRow × DbState) :=
  let sanitizedContent := sanitizeArticleContent data.content
  let wordCount := calculateWordCount sanitizedContent
  let readingTime := calculateReadingTime wordCount
  if db.rows.any (fun r => r.url == data.url) then
    Except.error DbError.duplicateUrl
  else
    let row : ArticleRow :=
      { id := db.nextId
        title := jsTrim data.title
        content := sanitizedContent
        url := data.url
        word_count := wordCount
        reading_time := readingTime
        tags := data.tags.getD [] }
    Except.ok (row, { rows := db.rows ++ [row], nextId := db.nextId + 1 })

/-- The per-run persistence loop of `scripts/scrapeArticles.ts` (lines 45-65):
for each scraped candidate, look the URL up; if present count it as skipped,
otherwise attempt `create`, counting a success as saved and any thrown
persistence failure as an error.  `faulty` models URLs whose insert fails for
a non-duplicate infrastructure reason (`executeQuery` throwing).  Returns the
final store and `(savedCount, skippedCount, errorCount)`. -/
def saveLoop (faulty : String → Bool) : DbState → List CreateArticleData →
    DbState × Nat × Nat × Nat
  | db, [] => (db, 0, 0, 0)
  | db, a :: rest =>
    match findByUrl db a.url with
    | some _ =>
      let r := saveLoop faulty db rest
      (r.1, r.2.1, r.2.2.1 + 1, r.2.2.2)
    | none =>
      if faulty a.url then
        let r := saveLoop faulty db rest
        (r.1, r.2.1, r.2.2.1, r.2.2.2 + 1)
      else
        match repoCreate db a with
        | Except.ok (_, db1) =>
          let r := saveLoop faulty db1 rest
          (r.1, r.2.1 + 1, r.2.2.1, r.2.2.2)
        | Except.error _ =>
          let r := saveLoop faulty db rest
          (r.1, r.2.1, r.2.2.1, r.2.2.2 + 1)

/-- An entry of the controller's per-article error list
(`ScraperController.ts` lines 68-72). -/
structure ErrEntry where
  title : String
  url : String
deriving Repr, DecidableEq

/-- The persistence loop of `ScraperController.scrapeOldestArticles`
(lines 50-74): already-existing articles are pushed onto `savedArticles`
alongside newly created ones, and any thrown failure is pushed onto the
error list.  Returns the final store, `savedArticles` and `errors`. -/
def controllerSaveLoop (faulty : String → Bool) : DbState → List CreateArticleData →
    DbState × List ArticleRow × List ErrEntry
  | db, [] => (db, [], [])
  | db, a :: rest =>
    match findByUrl db a.url with
    | some existing =>
      let r := controllerSaveLoop faulty db rest
      (r.1, existing :: r.2.1, r.2.2)
    | none =>
      if faulty a.url then
        let r := controllerSaveLoop faulty db rest
        (r.1, r.2.1, { title := a.title, url := a.url } :: r.2.2)
      else
        match repoCreate db a with
        | Except.ok (row, db1) =>
          let r := controllerSaveLoop faulty db1 rest
          (r.1, row :: r.2.1, r.2.2)
        | Except.error _ =>
          let r := controllerSaveLoop faulty db rest
          (r.1, r.2.1, { title := a.title, url := a.url } :: r.2.2)

/-- How an ingestion run is classified per article by the loop body: saved,
already-exists (the `findByUrl` hit), or an isolated error entry. -/
inductive SaveOutcome
  | saved
  | alreadyExists
  | errored
deriving Repr, DecidableEq

/-- The controller's catch clause around the per-article save
(`ScraperController.ts` lines 66-73): any failure thrown by
`ArticleRepository.create` is recorded as an error entry; the error kind is
not inspected, so a duplicate-key failure is classified exactly like any
other persistence failure. -/
def recordCreateResult (r : Except DbError (ArticleRow × DbState)) : SaveOutcome :=
  match r with
  | Except.ok _ => SaveOutcome.saved
  | Except.error _ => SaveOutcome.errored

/-- `WebScraperService.closeBrowser` (part_002 lines 43-48) acting on the
browser-open flag: close the browser if one is open, otherwise do nothing. -/
def closeBrowser (browser : Bool) : Bool :=
  if browser then false else browser

/-- Result of `WebScraperService.scrapeOldestArticles` as seen by the
controller: either a list of candidates (with the browser-open flag the
service left behind — the service opens the browser via `initBrowser` and its
`finally` closes only the per-run page, not the browser), or a thrown
failure. -/
inductive ScrapeOutcome
  | ok (articles : List CreateArticleData) (browserOpen : Bool)
  | thrown (browserOpen : Bool)
deriving Repr, DecidableEq

/-- HTTP statuses the controller responds with. -/
inductive HttpStatus
  | ok200
  | notFound404
  | serverError500
deriving Repr, DecidableEq

/-- `ScraperController.scrapeOldestArticles` (lines 18-115), reduced to its
control flow: on a thrown scrape failure the catch clause closes the browser
and responds 500; on an empty scrape result it responds 404 and returns
immediately (no `closeBrowser` call on this path); otherwise it runs the
persistence loop, closes the browser and responds 200.  Returns the response
status, the final browser-open flag and the final store. -/
def controllerScrapeOldest (faulty : String → Bool) (db : DbState) :
    ScrapeOutcome → HttpStatus × Bool × DbState
  | ScrapeOutcome.thrown b => (HttpStatus.serverError500, closeBrowser b, db)
  | ScrapeOutcome.ok articles b =>
    if articles.isEmpty then (HttpStatus.notFound404, b, db)
    else
      let r := controllerSaveLoop faulty db articles
      (HttpStatus.ok200, closeBrowser b, r.1)

/-!
## Helper lemmas
-/

instance {e a : Type} [DecidableEq e] [DecidableEq a] : DecidableEq (Except e a) := fun x y =>
  match x, y with
  | Except.ok u, Except.ok v =>
    if h : u = v then Decidable.isTrue (h ▸ rfl)
    else Decidable.isFalse (fun hh => h (Except.ok.inj hh))
  | Except.ok _, Except.error _ => Decidable.isFalse (fun hh => Except.noConfusion hh)
  | Except.error _, Except.ok _ => Decidable.isFalse (fun hh => Except.noConfusion hh)
  | Except.error u, Except.error v =>
    if h : u = v then Decidable.isTrue (h ▸ rfl)
    else Decidable.isFalse (fun hh => h (Except.error.inj hh))

theorem jsWs_elim {c : Char} (h : jsWs c = true) :
    c = ' ' ∨ c = '\t' ∨ c = '\r' ∨ c = '\n' := by
  simp only [jsWs, Char.isWhitespace, Bool.or_eq_true, beq_iff_eq,
    decide_eq_true_eq] at h
  tauto

theorem saveLoop_counts (faulty : String → Bool) :
    ∀ (arts : List CreateArticleData) (db : DbState),
      (saveLoop faulty db arts).2.1 + (saveLoop faulty db arts).2.2.1 +
        (saveLoop faulty db arts).2.2.2 = arts.length := by
  intro arts
  induction arts with
  | nil => intro db; simp [saveLoop]
  | cons a rest ih =>
    intro db
    simp only [saveLoop, List.length_cons]
    cases h : findByUrl db a.url with
    | some existing =>
      have := ih db
      simp only
      omega
    | none =>
      cases hf : faulty a.url with
      | true =>
        have := ih db
        simp
        omega
      | false =>
        simp only [Bool.false_eq_true, if_false]
        cases hc : repoCreate db a with
        | ok p =>
          obtain ⟨row, db1⟩ := p
          have := ih db1
          simp only
          omega
        | error e =>
          have := ih db
          simp only
          omega

theorem controllerSaveLoop_counts (faulty : String → Bool) :
    ∀ (arts : List CreateArticleData) (db : DbState),
      (controllerSaveLoop faulty db arts).2.1.length +
        (controllerSaveLoop faulty db arts).2.2.length = arts.length := by
  intro arts
  induction arts with
  | nil => intro db; simp [controllerSaveLoop]
  | cons a rest ih =>
    intro db
    simp only [controllerSaveLoop, List.length_cons]
    cases h : findByUrl db a.url with
    | some existing =>
      have := ih db
      simp only [List.length_cons]
      omega
    | none =>
      cases hf : faulty a.url with
      | true =>
        have := ih db
        simp
        omega
      | false =>
        simp only [Bool.false_eq_true, if_false]
        cases hc : repoCreate db a with
        | ok p =>
          obtain ⟨row, db1⟩ := p
          have := ih db1
          simp only [List.length_cons]
          omega
        | error e =>
          have := ih db
          simp only [List.length_cons]
          omega

theorem repoCreate_ok_elim {db : DbState} {data : CreateArticleData}
    {row : ArticleRow} {db1 : DbState}
    (h : repoCreate db data = Except.ok (row, db1)) :
    db.rows.any (fun r => r.url == data.url) = false
    ∧ row = { id := db.nextId
              title := jsTrim data.title
              content := sanitizeArticleContent data.content
              url := data.url
              word_count := calculateWordCount (sanitizeArticleContent data.content)
              reading_time :=
                calculateReadingTime (calculateWordCount (sanitizeArticleContent data.content))
              tags := data.tags.getD [] }
    ∧ db1 = { rows := db.rows ++ [row], nextId := db.nextId + 1 } := by
  unfold repoCreate at h
  by_cases hc : db.rows.any (fun r => r.url == data.url)
  · rw [if_pos hc] at h
    cases h
  · rw [if_neg hc] at h
    simp only [Except.ok.injEq, Prod.mk.injEq] at h
    obtain ⟨hrow, hdb⟩ := h
    refine ⟨by simpa using hc, hrow.symm, ?_⟩
    rw [← hrow]
    exact hdb.symm

theorem readingTime_eq_ceil (wc : Nat) :
    calculateReadingTime wc = ⌈(wc : ℚ) / 200⌉₊ := by
  unfold calculateReadingTime
  refine le_antisymm ?_ ?_
  · have h1 : (wc : ℚ) / 200 ≤ (⌈(wc : ℚ) / 200⌉₊ : ℚ) := Nat.le_ceil _
    have h2 : (wc : ℚ) ≤ (⌈(wc : ℚ) / 200⌉₊ : ℚ) * 200 := by
      rwa [div_le_iff₀ (by norm_num : (0 : ℚ) < 200)] at h1
    have h3 : wc ≤ ⌈(wc : ℚ) / 200⌉₊ * 200 := by exact_mod_cast h2
    omega
  · rw [Nat.ceil_le, div_le_iff₀ (by norm_num : (0 : ℚ) < 200)]
    have h : wc ≤ (wc + 199) / 200 * 200 := by omega
    exact_mod_cast h

theorem startsCI_ws_head {p c : Char} (hp : p.toLower ≠ c.toLower) (t cs : List Char) :
    startsCI (p :: t) (c :: cs) = false := by
  simp [startsCI, hp]

theorem ws_toLower {c : Char} (h : jsWs c = true) : c.toLower = c := by
  rcases jsWs_elim h with rfl | rfl | rfl | rfl <;> decide

theorem blockRemainder_ws {t closeT : List Char} {c : Char} {cs : List Char}
    (h : jsWs c = true) :
    blockRemainder ('<' :: t) closeT (c :: cs) = none := by
  have hne : ('<' : Char).toLower ≠ c.toLower := by
    rw [ws_toLower h]
    rcases jsWs_elim h with rfl | rfl | rfl | rfl <;> decide
  unfold blockRemainder
  rw [startsCI_ws_head hne]
  simp

theorem removeBlocks_ws (t closeT : List Char) :
    ∀ (fuel : Nat) (l : List Char), (∀ c ∈ l, jsWs c = true) →
      removeBlocks ('<' :: t) closeT fuel l = l := by
  intro fuel
  induction fuel with
  | zero => intro l _; rfl
  | succ n ih =>
    intro l hl
    cases l with
    | nil => rfl
    | cons c cs =>
      have hc : jsWs c = true := hl c (by simp)
      simp only [removeBlocks, blockRemainder_ws hc]
      rw [ih cs (fun x hx => hl x (by simp [hx]))]

theorem removeSub_ws {p : Char} (hlt : ∀ c, jsWs c = true → p.toLower ≠ c.toLower)
    (t : List Char) :
    ∀ (fuel : Nat) (l : List Char), (∀ c ∈ l, jsWs c = true) →
      removeSub (p :: t) fuel l = l := by
  intro fuel
  induction fuel with
  | zero => intro l _; rfl
  | succ n ih =>
    intro l hl
    cases l with
    | nil => rfl
    | cons c cs =>
      have hc : jsWs c = true := hl c (by simp)
      simp only [removeSub, startsCI_ws_head (hlt c hc)]
      simp only [Bool.false_eq_true, if_false]
      rw [ih cs (fun x hx => hl x (by simp [hx]))]

theorem handlerRemainder_ws {c : Char} {cs : List Char} (h : jsWs c = true) :
    handlerRemainder (c :: cs) = none := by
  cases cs with
  | nil => rfl
  | cons d ds =>
    have hne : c.toLower ≠ 'o' := by
      rcases jsWs_elim h with rfl | rfl | rfl | rfl <;> decide
    simp only [handlerRemainder]
    rw [if_neg]
    simp only [Bool.and_eq_true, beq_iff_eq, not_and]
    intro hco
    exact absurd hco hne

theorem removeHandlers_ws :
    ∀ (fuel : Nat) (l : List Char), (∀ c ∈ l, jsWs c = true) →
      removeHandlers fuel l = l := by
  intro fuel
  induction fuel with
  | zero => intro l _; rfl
  | succ n ih =>
    intro l hl
    cases l with
    | nil => rfl
    | cons c cs =>
      have hc : jsWs c = true := hl c (by simp)
      simp only [removeHandlers, handlerRemainder_ws hc]
      rw [ih cs (fun x hx => hl x (by simp [hx]))]

theorem sanitize_ws {s : String} (h : ∀ c ∈ s.toList, jsWs c = true) :
    sanitizeArticleContent s = "" := by
  have hj : ∀ c, jsWs c = true → ('j' : Char).toLower ≠ c.toLower := by
    intro c hc
    rcases jsWs_elim hc with rfl | rfl | rfl | rfl <;> decide
  simp only [sanitizeArticleContent]
  rw [show "<script".toList = '<' :: "script".toList from rfl]
  rw [removeBlocks_ws _ _ _ _ h]
  rw [show "<iframe".toList = '<' :: "iframe".toList from rfl]
  rw [removeBlocks_ws _ _ _ _ h]
  rw [show "javascript:".toList = 'j' :: "avascript:".toList from rfl]
  rw [removeSub_ws hj _ _ _ h]
  rw [removeHandlers_ws _ _ h]
  unfold trimBoth
  rw [List.dropWhile_eq_nil_iff.mpr (fun x hx => h x hx)]
  rfl

/-!
## Claims C1, C3, C4, C5, C10
-/

/-- C1: in every successful ingestion run, the number of scraped candidates
equals savedCount + skippedCount (already-existing duplicates) + errorCount:
each candidate of the persistence loop is classified in exactly one of the
three ways.  For the controller's aggregate result, where already-existing
articles are pushed onto `savedArticles` itself, the reported scraped count
equals `savedArticles.length + errors.length`. -/
theorem c1_scraped_eq_saved_add_skipped_add_errored
    (faulty : String → Bool) (db : DbState) (arts : List CreateArticleData) :
    (saveLoop faulty db arts).2.1 + (saveLoop faulty db arts).2.2.1 +
        (saveLoop faulty db arts).2.2.2 = arts.length
    ∧ (controllerSaveLoop faulty db arts).2.1.length +
        (controllerSaveLoop faulty db arts).2.2.length = arts.length :=
  ⟨saveLoop_counts faulty arts db, controllerSaveLoop_counts faulty arts db⟩

/-- C3 (code bug): `closeBrowser` is idempotent and the browser is closed on
the success and thrown-failure exit paths of
`ScraperController.scrapeOldestArticles`, but on the zero-articles-found exit
path the controller responds 404 and returns with the browser still open —
`closeBrowser` is never called there, contradicting the claim that the
session is closed on every exit path. -/
theorem c3_zero_articles_browser_leak
    (faulty : String → Bool) (db : DbState) (b : Bool)
    (a : CreateArticleData) (arts : List CreateArticleData) :
    (controllerScrapeOldest faulty db (ScrapeOutcome.ok [] true)).1 = HttpStatus.notFound404
    ∧ (controllerScrapeOldest faulty db (ScrapeOutcome.ok [] true)).2.1 = true
    ∧ (controllerScrapeOldest faulty db (ScrapeOutcome.thrown b)).2.1 = false
    ∧ (controllerScrapeOldest faulty db (ScrapeOutcome.ok (a :: arts) b)).2.1 = false
    ∧ closeBrowser (closeBrowser b) = closeBrowser b := by
  refine ⟨rfl, rfl, ?_, ?_, ?_⟩ <;>
    cases b <;> simp [controllerScrapeOldest, closeBrowser]

/-- C4: every article created by `ArticleRepository.create` has
`word_count` equal to the number of whitespace-separated non-empty words of
the stored content, and `reading_time` equal to the ceiling of
`word_count / 200`; when the candidate content is empty or whitespace-only
the stored word count and reading time are both `0`. -/
theorem c4_word_count_reading_time
    (db : DbState) (data : CreateArticleData) (row : ArticleRow) (db1 : DbState)
    (h : repoCreate db data = Except.ok (row, db1)) :
    row.word_count = calculateWordCount row.content
    ∧ row.reading_time = ⌈(row.word_count : ℚ) / 200⌉₊
    ∧ ((∀ c ∈ data.content.toList, jsWs c = true) →
        row.word_count = 0 ∧ row.reading_time = 0) := by
  obtain ⟨-, hrow, -⟩ := repoCreate_ok_elim h
  subst hrow
  refine ⟨rfl, (readingTime_eq_ceil _).symm ▸ rfl, ?_⟩
  intro hws
  rw [sanitize_ws hws]
  exact ⟨rfl, rfl⟩

/-- The candidate of the C4 witness scenario: whitespace-only content. -/
def c4data : CreateArticleData :=
  { title := "T", content := "  \t ", url := "https://x", tags := none }

/-- The row stored for the C4 witness scenario. -/
def c4row : ArticleRow :=
  { id := 0, title := "T", content := "", url := "https://x",
    word_count := 0, reading_time := 0, tags := [] }

/-- Witness for C4: creating an article from whitespace-only content yields
word count 0 and reading time 0. -/
theorem c4_witness :
    repoCreate { rows := [], nextId := 0 } c4data =
      Except.ok (c4row, { rows := [c4row], nextId := 1 })
    ∧ c4row.word_count = 0 ∧ c4row.reading_time = 0 := by
  refine ⟨by decide, ?_⟩
  exact (c4_word_count_reading_time { rows := [], nextId := 0 } c4data c4row
    { rows := [c4row], nextId := 1 } (by decide)).2.2 (by decide)

/-- The article used in the C5 scenario. -/
def c5article : CreateArticleData :=
  { title := "T", content := "some text", url := "https://beyondchats.com/blogs/a",
    tags := none }

/-- The row produced by the first `create` of the C5 scenario. -/
def c5row : ArticleRow :=
  { id := 0, title := "T", content := "some text",
    url := "https://beyondchats.com/blogs/a", word_count := 2, reading_time := 1,
    tags := [] }

/-- The store after the first `create` of the C5 scenario. -/
def c5dbAfterFirst : DbState := { rows := [c5row], nextId := 1 }

/-- Counterexample to C5 as stated: calling `create` twice with the same URL
does leave exactly one row and the second call does fail with the
duplicate-key error, but the orchestrator's catch clause records that failure
as an isolated error entry — not as "already exists" (no code inspects the
error kind). -/
theorem c5_counterexample :
    repoCreate { rows := [], nextId := 0 } c5article = Except.ok (c5row, c5dbAfterFirst)
    ∧ repoCreate c5dbAfterFirst c5article = Except.error DbError.duplicateUrl
    ∧ (c5dbAfterFirst.rows.filter (fun r => r.url == c5article.url)).length = 1
    ∧ recordCreateResult (repoCreate c5dbAfterFirst c5article) = SaveOutcome.errored
    ∧ recordCreateResult (repoCreate c5dbAfterFirst c5article) ≠ SaveOutcome.alreadyExists := by
  decide

/-- C5 (amended): if `create` succeeds for a URL and is then invoked again
with a candidate having the identical URL, exactly one matching row exists
afterwards and the second invocation fails with the uniqueness-violation
error rather than creating a second record; the orchestrator's catch clause
records that failure as an isolated error entry (the "already exists" report
arises only from the `findByUrl` pre-check, not from the create failure). -/
theorem c5_amended_second_create_fails
    (db : DbState) (a a2 : CreateArticleData) (row : ArticleRow) (db1 : DbState)
    (hurl : a2.url = a.url)
    (h : repoCreate db a = Except.ok (row, db1)) :
    (db1.rows.filter (fun r => r.url == a2.url)).length = 1
    ∧ repoCreate db1 a2 = Except.error DbError.duplicateUrl
    ∧ recordCreateResult (repoCreate db1 a2) = SaveOutcome.errored := by
  obtain ⟨hany, hrow, hdb⟩ := repoCreate_ok_elim h
  have hrurl : row.url = a.url := by rw [hrow]
  have hall : ∀ r ∈ db.rows, ¬ r.url = a2.url := by
    simp only [List.any_eq_false, beq_iff_eq] at hany
    intro r hr
    rw [hurl]
    exact hany r hr
  have hfilter0 : db.rows.filter (fun r => r.url == a2.url) = [] := by
    rw [List.filter_eq_nil_iff]
    intro r hr
    simpa using hall r hr
  have hfilter1 : db1.rows.filter (fun r => r.url == a2.url) = [row] := by
    rw [hdb]
    simp only [List.filter_append, hfilter0, List.nil_append]
    simp [hrurl, hurl]
  have hcond : db1.rows.any (fun r => r.url == a2.url) = true := by
    rw [hdb]
    simp [List.any_append, hrurl, hurl]
  have herr : repoCreate db1 a2 = Except.error DbError.duplicateUrl := by
    unfold repoCreate
    rw [if_pos hcond]
  exact ⟨by rw [hfilter1]; rfl, herr, by rw [herr]; rfl⟩

/-- Witness for C5 (amended): the concrete two-invocation scenario. -/
theorem c5_witness :
    (c5dbAfterFirst.rows.filter (fun r => r.url == c5article.url)).length = 1
    ∧ repoCreate c5dbAfterFirst c5article = Except.error DbError.duplicateUrl
    ∧ recordCreateResult (repoCreate c5dbAfterFirst c5article) = SaveOutcome.errored :=
  c5_amended_second_create_fails { rows := [], nextId := 0 } c5article c5article
    c5row c5dbAfterFirst rfl (by decide)

/-- C10: `ArticleRepository.create` persists the sanitized content
`sanitizeArticleContent(candidate.content)` — script and iframe blocks,
`javascript:` occurrences and inline-event-handler attribute heads removed,
then trimmed — and the stored `word_count` and `reading_time` are computed
from this sanitized content, not from the raw candidate content (the last
conjunct exhibits a content string on which the two differ). -/
theorem c10_sanitized_content_persisted :
    (∀ (db : DbState) (data : CreateArticleData) (row : ArticleRow) (db1 : DbState),
      repoCreate db data = Except.ok (row, db1) →
        row.content = sanitizeArticleContent data.content
        ∧ row.word_count = calculateWordCount (sanitizeArticleContent data.content)
        ∧ row.reading_time =
            calculateReadingTime (calculateWordCount (sanitizeArticleContent data.content)))
    ∧ sanitizeArticleContent "hello <script>a b c</script> world" = "hello  world"
    ∧ sanitizeArticleContent "<iframe src=\"x\">spam</iframe>ok" = "ok"
    ∧ sanitizeArticleContent "click javascript:alert" = "click alert"
    ∧ sanitizeArticleContent " <a onclick = \"x\">hi</a> " = "<a  \"x\">hi</a>"
    ∧ calculateWordCount "hello <script>a b c</script> world"
        ≠ calculateWordCount (sanitizeArticleContent "hello <script>a b c</script> world") := by
  refine ⟨?_, by decide, by decide, by decide, by decide, by decide⟩
  intro db data row db1 h
  obtain ⟨-, hrow, -⟩ := repoCreate_ok_elim h
  subst hrow
  exact ⟨rfl, rfl, rfl⟩

/-- The candidate of the C10 witness scenario. -/
def c10data : CreateArticleData :=
  { title := "T", content := "hello <script>a b c</script> world",
    url := "https://x", tags := none }

/-- The row stored for the C10 witness scenario. -/
def c10row : ArticleRow :=
  { id := 0, title := "T", content := "hello  world", url := "https://x",
    word_count := 2, reading_time := 1, tags := [] }

/-- Witness for C10: a concrete create stores exactly the sanitized content. -/
theorem c10_witness :
    repoCreate { rows := [], nextId := 0 } c10data =
      Except.ok (c10row, { rows := [c10row], nextId := 1 })
    ∧ c10row.content = sanitizeArticleContent c10data.content := by
  refine ⟨by decide, ?_⟩
  have h := (c10_sanitized_content_persisted.1 { rows := [], nextId := 0 } c10data
    c10row { rows := [c10row], nextId := 1 } (by decide)).1
  exact h.symm ▸ rfl

/-!
## Link extraction (`WebScraperService.extractArticleLinks`, part_002 lines 188-226)
-/

/-- The ordered selector strategies of `extractArticleLinks` (lines 190-198). -/
def articleSelectors : List String :=
  ["article a[href*=\"/blog\"]",
   ".blog-post a",
   ".post-title a",
   "h2 a[href*=\"/blog\"]",
   "h3 a[href*=\"/blog\"]",
   ".entry-title a",
   "a[href*=\"/blogs/\"]"]

/-- A rendered listing page, abstracted as the puppeteer query results the
service reads: for each selector string, the `href` attribute (`none` for a
missing attribute) of each matched element, in document order. -/
abbrev RenderedListing : Type := String → List (Option String)

/-- The `$$eval` body for one selector (lines 204-209): take each element's
href, keep the truthy ones containing `/blog`, and prefix the ones not
starting with `http` with the site origin (template literal of line 208). -/
def processFound (hrefs : List (Option String)) : List String :=
  ((hrefs.filterMap id).filter
      (fun h => (h != "") && jsIncludes h "/blog")).map
    (fun h => if jsStartsWith h "http" then h else "https://www.beyondchats.com" ++ h)

/-- The selector loop of lines 200-218: strategies are tried in order and the
first one yielding at least one link is used exclusively (the `break`). -/
def firstStrategyLinks (page : RenderedListing) : List String → List String
  | [] => []
  | sel :: rest =>
    let found := processFound (page sel)
    if found.isEmpty then firstStrategyLinks page rest else found

/-- `[...new Set(links)]` (line 221): deduplicate, keeping the first
occurrence of each link and preserving first-seen order. -/
def dedupKeepFirst (seen : List String) : List String → List String
  | [] => []
  | x :: xs =>
    if x ∈ seen then dedupKeepFirst seen xs
    else x :: dedupKeepFirst (x :: seen) xs

/-- `WebScraperService.extractArticleLinks` (lines 188-226). -/
def extractArticleLinks (page : RenderedListing) : List String :=
  dedupKeepFirst [] (firstStrategyLinks page articleSelectors)

theorem string_toList_append (a b : String) : (a ++ b).toList = a.toList ++ b.toList := by
  cases a
  cases b
  rfl

theorem startsHttp_of_origin (h : String) :
    jsStartsWith ("https://www.beyondchats.com" ++ h) "http" = true := by
  unfold jsStartsWith
  rw [string_toList_append]
  rw [show "https://www.beyondchats.com".toList
      = 'h' :: 't' :: 't' :: 'p' :: 's' :: "://www.beyondchats.com".toList from rfl]
  rw [show "http".toList = ['h', 't', 't', 'p'] from rfl]
  simp [startsChars]

theorem processFound_starts {u : String} {hrefs : List (Option String)}
    (hu : u ∈ processFound hrefs) : jsStartsWith u "http" = true := by
  simp only [processFound, List.mem_map] at hu
  obtain ⟨h, -, rfl⟩ := hu
  by_cases hh : jsStartsWith h "http" = true
  · rw [if_pos hh]; exact hh
  · rw [if_neg hh]; exact startsHttp_of_origin h

theorem dedup_mem (x : String) :
    ∀ (l seen : List String), x ∈ dedupKeepFirst seen l ↔ (x ∈ l ∧ x ∉ seen) := by
  intro l
  induction l with
  | nil => intro seen; simp [dedupKeepFirst]
  | cons y ys ih =>
    intro seen
    simp only [dedupKeepFirst]
    by_cases hy : y ∈ seen
    · rw [if_pos hy, ih]
      constructor
      · rintro ⟨hx, hn⟩
        exact ⟨List.mem_cons_of_mem y hx, hn⟩
      · rintro ⟨hmem, hn⟩
        rcases List.mem_cons.mp hmem with rfl | hx
        · exact absurd hy hn
        · exact ⟨hx, hn⟩
    · rw [if_neg hy]
      constructor
      · intro hmem
        rcases List.mem_cons.mp hmem with rfl | hmem2
        · exact ⟨List.mem_cons_self x ys, hy⟩
        · obtain ⟨hx, hn⟩ := (ih (y :: seen)).mp hmem2
          exact ⟨List.mem_cons_of_mem y hx,
            fun hs => hn (List.mem_cons_of_mem y hs)⟩
      · rintro ⟨hmem, hn⟩
        rcases List.mem_cons.mp hmem with rfl | hx
        · exact List.mem_cons_self x _
        · by_cases hxy : x = y
          · subst hxy
            exact List.mem_cons_self x _
          · refine List.mem_cons_of_mem y ((ih (y :: seen)).mpr ⟨hx, fun hs => ?_⟩)
            exact (List.mem_cons.mp hs).elim hxy hn

theorem dedup_sublist : ∀ (l seen : List String), List.Sublist (dedupKeepFirst seen l) l := by
  intro l
  induction l with
  | nil => intro seen; simp [dedupKeepFirst]
  | cons y ys ih =>
    intro seen
    simp only [dedupKeepFirst]
    by_cases hy : y ∈ seen
    · rw [if_pos hy]
      exact (ih seen).cons y
    · rw [if_neg hy]
      exact (ih (y :: seen)).cons₂ y

theorem dedup_nodup : ∀ (l seen : List String), (dedupKeepFirst seen l).Nodup := by
  intro l
  induction l with
  | nil => intro seen; simp [dedupKeepFirst]
  | cons y ys ih =>
    intro seen
    simp only [dedupKeepFirst]
    by_cases hy : y ∈ seen
    · rw [if_pos hy]; exact ih seen
    · rw [if_neg hy]
      refine List.nodup_cons.mpr ⟨?_, ih (y :: seen)⟩
      intro hmem
      exact ((dedup_mem y ys (y :: seen)).mp hmem).2 (List.mem_cons_self y seen)

theorem firstStrategy_cases (page : RenderedListing) :
    ∀ sels : List String,
      ((∀ sel ∈ sels, processFound (page sel) = []) ∧ firstStrategyLinks page sels = [])
      ∨ ∃ gone sel rest, sels = gone ++ sel :: rest
          ∧ (∀ s ∈ gone, processFound (page s) = [])
          ∧ processFound (page sel) ≠ []
          ∧ firstStrategyLinks page sels = processFound (page sel) := by
  intro sels
  induction sels with
  | nil => left; exact ⟨by simp, rfl⟩
  | cons s ss ih =>
    by_cases hs : processFound (page s) = []
    · have hstep : firstStrategyLinks page (s :: ss) = firstStrategyLinks page ss := by
        simp only [firstStrategyLinks]
        rw [if_pos (by simp [hs])]
      rcases ih with ⟨hall, hemp⟩ | ⟨gone, sel, rest, hdec, hgone, hne, heq⟩
      · left
        refine ⟨?_, hstep.trans hemp⟩
        intro x hx
        rcases List.mem_cons.mp hx with rfl | hx2
        · exact hs
        · exact hall x hx2
      · right
        refine ⟨s :: gone, sel, rest, by rw [hdec]; rfl, ?_, hne, hstep.trans heq⟩
        intro x hx
        rcases List.mem_cons.mp hx with rfl | hx2
        · exact hs
        · exact hgone x hx2
    · right
      refine ⟨[], s, ss, rfl, by simp, hs, ?_⟩
      simp only [firstStrategyLinks]
      rw [if_neg (by simp [hs])]

/-- C6: for every rendered listing page, `extractArticleLinks` uses exactly
the first selector strategy that yields at least one processed href (never a
merge), every returned link starts with `http` (absolute), and the result is
the first strategy's links deduplicated keeping first occurrences in order
(no duplicates, a sublist of the strategy's links, same membership); when no
strategy matches the result is the empty list. -/
theorem c6_link_extractor (page : RenderedListing) :
    (((∀ sel ∈ articleSelectors, processFound (page sel) = [])
        ∧ extractArticleLinks page = [])
      ∨ ∃ gone sel rest, articleSelectors = gone ++ sel :: rest
          ∧ (∀ s ∈ gone, processFound (page s) = [])
          ∧ processFound (page sel) ≠ []
          ∧ extractArticleLinks page = dedupKeepFirst [] (processFound (page sel)))
    ∧ (∀ u ∈ extractArticleLinks page, jsStartsWith u "http" = true)
    ∧ (extractArticleLinks page).Nodup
    ∧ List.Sublist (extractArticleLinks page) (firstStrategyLinks page articleSelectors)
    ∧ (∀ u, u ∈ extractArticleLinks page ↔ u ∈ firstStrategyLinks page articleSelectors) := by
  have hfs := firstStrategy_cases page articleSelectors
  refine ⟨?_, ?_, dedup_nodup _ [], dedup_sublist _ [], ?_⟩
  · rcases hfs with ⟨hall, hemp⟩ | ⟨gone, sel, rest, hdec, hgone, hne, heq⟩
    · left
      refine ⟨hall, ?_⟩
      unfold extractArticleLinks
      rw [hemp]
      rfl
    · right
      refine ⟨gone, sel, rest, hdec, hgone, hne, ?_⟩
      unfold extractArticleLinks
      rw [heq]
  · intro u hu
    have hmem := ((dedup_mem u _ []).mp hu).1
    rcases hfs with ⟨-, hemp⟩ | ⟨-, sel, -, -, -, -, heq⟩
    · rw [hemp] at hmem
      cases hmem
    · rw [heq] at hmem
      exact processFound_starts hmem
  · intro u
    constructor
    · intro hu
      exact ((dedup_mem u _ []).mp hu).1
    · intro hu
      exact (dedup_mem u _ []).mpr ⟨hu, by simp⟩

/-- The concrete listing page of the C6 witness: the first strategy matches
nothing, the second matches four elements (one null href, one duplicate, one
absolute link). -/
def c6page : RenderedListing := fun sel =>
  if sel == ".blog-post a" then
    [some "/blogs/a", none, some "/blogs/a", some "https://x.com/blogs/b"]
  else []

/-- Witness for C6: on the concrete page the extractor returns the second
strategy's links, absolute and deduplicated in first-seen order. -/
theorem c6_witness :
    extractArticleLinks c6page =
      ["https://www.beyondchats.com/blogs/a", "https://x.com/blogs/b"]
    ∧ jsStartsWith "https://x.com/blogs/b" "http" = true
    ∧ (extractArticleLinks c6page).Nodup :=
  ⟨by decide,
   (c6_link_extractor c6page).2.1 "https://x.com/blogs/b" (by decide),
   (c6_link_extractor c6page).2.2.1⟩

/-!
## Pagination resolution (`WebScraperService.findLastPage`, part_002 lines 131-183)
-/

/-- The explicit pagination selectors (lines 134-140). -/
def paginationSelectors : List String :=
  ["a[aria-label=\"Last page\"]",
   ".pagination a:last-child",
   ".page-numbers:last-child",
   "a[title*=\"last\"]",
   "a[title*=\"Last\"]"]

/-- A link of the `a[href*="page"]` scan (lines 157-169): its `href`
attribute (`none` when absent) and its trimmed text content
(`el.textContent?.trim()`, `none` when absent). -/
structure PageLink where
  href : Option String
  text : Option String
deriving Repr, DecidableEq

/-- A rendered listing page as read by `findLastPage`: `firstMatch sel` is
the result of `page.$(sel)` (`none` when no element matches, otherwise the
element's `href` attribute), and `pageLinks` are the `a[href*="page"]`
matches in document order. -/
structure ListingPage where
  firstMatch : String → Option (Option String)
  pageLinks : List PageLink

/-- `new URL(href, baseUrl).toString()` against the service's base url
`https://beyondchats.com/blogs` (line 16), modelled for the reference shapes
that occur on listing pages: protocol-relative, root-relative, query-only,
fragment-only and path-relative references (the WHATWG resolution drops the
base path's last segment for path-relative references). -/
def newUrlAgainstBase (href : String) : String :=
  if jsStartsWith href "//" then "https:" ++ href
  else if jsStartsWith href "/" then "https://beyondchats.com" ++ href
  else if jsStartsWith href "?" then "https://beyondchats.com/blogs" ++ href
  else if jsStartsWith href "#" then "https://beyondchats.com/blogs" ++ href
  else "https://beyondchats.com/" ++ href

/-- Href resolution of `findLastPage` (lines 148 and 173-175):
`href.startsWith('http') ? href : new URL(href, this.baseUrl).toString()`. -/
def resolvePaginationHref (href : String) : String :=
  if jsStartsWith href "http" then href else newUrlAgainstBase href

/-- The explicit pagination-selector loop (lines 142-154): the first selector
whose element exists and carries a truthy (non-null, non-empty) `href` wins;
an element without a usable href lets the loop move on to the next
selector. -/
def firstPaginationHref (page : ListingPage) : List String → Option String
  | [] => none
  | sel :: rest =>
    match page.firstMatch sel with
    | some (some href) =>
      if href != "" then some href else firstPaginationHref page rest
    | _ => firstPaginationHref page rest

/-- `parseInt(text.match(/\d+/)?.[0] || '0')`: the first maximal digit run
of the string as a natural number, `0` when no digit occurs. -/
def parseFirstNat (s : String) : Nat :=
  let run := (s.toList.dropWhile (fun c => !c.isDigit)).takeWhile Char.isDigit
  run.foldl (fun acc c => 10 * acc + (c.toNat - 48)) 0

/-- `/\d+/.test(s)`. -/
def hasDigit (s : String) : Bool := s.toList.any Char.isDigit

/-- The filter of line 163: `item.href && /\d+/.test(item.text || '')`. -/
def pageNumberFilter (l : PageLink) : Bool :=
  match l.href with
  | none => false
  | some h => (h != "") && hasDigit (l.text.getD "")

/-- The sort key of lines 165-166: `parseInt(a.text?.match(/\d+/)?.[0] || '0')`. -/
def linkNum (l : PageLink) : Nat := parseFirstNat (l.text.getD "")

/-- Stable insertion for a descending order by `linkNum`: the new element is
placed after every earlier element of greater-or-equal key, so equal keys
keep their original relative order. -/
def insertDesc (x : PageLink) : List PageLink → List PageLink
  | [] => [x]
  | y :: ys => if linkNum y < linkNum x then x :: y :: ys else y :: insertDesc x ys

/-- Stable descending sort by `linkNum`, processing the input left to right:
models the stable `Array.prototype.sort` with comparator `numB - numA`
(lines 164-168). -/
def sortDesc : List PageLink → List PageLink → List PageLink
  | acc, [] => acc
  | acc, x :: xs => sortDesc (insertDesc x acc) xs

/-- `WebScraperService.findLastPage` (lines 131-183): try the explicit
pagination selectors; if none yields an href, take the `a[href*="page"]`
links whose href is truthy and whose text contains a digit, sort them by
numeric value descending, and resolve the first one's href; `null` ("no
further page") when both heuristics fail. -/
def findLastPage (page : ListingPage) : Option String :=
  match firstPaginationHref page paginationSelectors with
  | some href => some (resolvePaginationHref href)
  | none =>
    match sortDesc [] (page.pageLinks.filter pageNumberFilter) with
    | [] => none
    | top :: _ => some (resolvePaginationHref (top.href.getD ""))

/-- The descending-by-`linkNum` relation used for sortedness. -/
def DescKey (a b : PageLink) : Prop := linkNum b ≤ linkNum a

theorem insertDesc_mem (x z : PageLink) :
    ∀ l, z ∈ insertDesc x l ↔ z = x ∨ z ∈ l := by
  intro l
  induction l with
  | nil => simp [insertDesc]
  | cons y ys ih =>
    simp only [insertDesc]
    by_cases h : linkNum y < linkNum x
    · rw [if_pos h]
      simp [List.mem_cons]
    · rw [if_neg h]
      simp only [List.mem_cons, ih]
      tauto

theorem insertDesc_sorted (x : PageLink) :
    ∀ l, List.Sorted DescKey l → List.Sorted DescKey (insertDesc x l) := by
  intro l
  induction l with
  | nil => intro _; simp [insertDesc, List.Sorted]
  | cons y ys ih =>
    intro hs
    rw [List.sorted_cons] at hs
    obtain ⟨hy, hys⟩ := hs
    simp only [insertDesc]
    by_cases h : linkNum y < linkNum x
    · rw [if_pos h]
      rw [List.sorted_cons]
      refine ⟨?_, List.sorted_cons.mpr ⟨hy, hys⟩⟩
      intro b hb
      rcases List.mem_cons.mp hb with rfl | hb2
      · exact Nat.le_of_lt h
      · exact Nat.le_trans (hy b hb2) (Nat.le_of_lt h)
    · rw [if_neg h]
      rw [List.sorted_cons]
      refine ⟨?_, ih hys⟩
      intro b hb
      rcases (insertDesc_mem x b ys).mp hb with rfl | hb2
      · exact Nat.le_of_not_lt h
      · exact hy b hb2

theorem sortDesc_mem (z : PageLink) :
    ∀ (l acc : List PageLink), z ∈ sortDesc acc l ↔ z ∈ acc ∨ z ∈ l := by
  intro l
  induction l with
  | nil => intro acc; simp [sortDesc]
  | cons x xs ih =>
    intro acc
    simp only [sortDesc, ih, insertDesc_mem, List.mem_cons]
    tauto

theorem sortDesc_sorted :
    ∀ (l acc : List PageLink), List.Sorted DescKey acc →
      List.Sorted DescKey (sortDesc acc l) := by
  intro l
  induction l with
  | nil => intro acc h; exact h
  | cons x xs ih =>
    intro acc h
    exact ih _ (insertDesc_sorted x acc h)

theorem insertDesc_ne_nil (x : PageLink) (l : List PageLink) :
    insertDesc x l ≠ [] := by
  cases l with
  | nil => simp [insertDesc]
  | cons y ys =>
    simp only [insertDesc]
    by_cases h : linkNum y < linkNum x
    · rw [if_pos h]; simp
    · rw [if_neg h]; simp

theorem sortDesc_ne_nil :
    ∀ (l acc : List PageLink), acc ≠ [] ∨ l ≠ [] → sortDesc acc l ≠ [] := by
  intro l
  induction l with
  | nil =>
    intro acc h
    rcases h with h | h
    · exact h
    · exact absurd rfl h
  | cons x xs ih =>
    intro acc _
    exact ih (insertDesc x acc) (Or.inl (insertDesc_ne_nil x acc))

/-- C7: when no explicit pagination selector yields an href, `findLastPage`
scans the links whose text contains a digit: if the scan is empty it returns
"no further page" (`none`, never an error — the function is total); otherwise
it returns the resolved href of a scanned link whose numeric value is maximal
among all scanned links. -/
theorem c7_pagination_max_fallback (page : ListingPage)
    (h : firstPaginationHref page paginationSelectors = none) :
    (page.pageLinks.filter pageNumberFilter = [] → findLastPage page = none)
    ∧ (page.pageLinks.filter pageNumberFilter ≠ [] →
        ∃ top, top ∈ page.pageLinks.filter pageNumberFilter
          ∧ findLastPage page = some (resolvePaginationHref (top.href.getD ""))
          ∧ ∀ l ∈ page.pageLinks.filter pageNumberFilter, linkNum l ≤ linkNum top) := by
  constructor
  · intro hemp
    unfold findLastPage
    rw [h, hemp]
    rfl
  · intro hne
    have hsne : sortDesc [] (page.pageLinks.filter pageNumberFilter) ≠ [] :=
      sortDesc_ne_nil _ [] (Or.inr hne)
    obtain ⟨top, rest, htop⟩ :
        ∃ top rest, sortDesc [] (page.pageLinks.filter pageNumberFilter) = top :: rest := by
      cases hs : sortDesc [] (page.pageLinks.filter pageNumberFilter) with
      | nil => exact absurd hs hsne
      | cons t r => exact ⟨t, r, rfl⟩
    refine ⟨top, ?_, ?_, ?_⟩
    · have := (sortDesc_mem top _ []).mp (htop ▸ List.mem_cons_self top rest)
      simpa using this
    · unfold findLastPage
      rw [h, htop]
    · intro l hl
      have hmem : l ∈ sortDesc [] (page.pageLinks.filter pageNumberFilter) :=
        (sortDesc_mem l _ []).mpr (Or.inr hl)
      rw [htop] at hmem
      rcases List.mem_cons.mp hmem with rfl | hmem2
      · exact Nat.le_refl _
      · have hsorted := sortDesc_sorted (page.pageLinks.filter pageNumberFilter) []
          (by simp [List.Sorted])
        rw [htop, List.sorted_cons] at hsorted
        exact hsorted.1 l hmem2

/-- The concrete listing page of the C7 witness: no pagination selector
matches; three page-number links with values 2, 7 and 3. -/
def c7page : ListingPage :=
  { firstMatch := fun _ => none
    pageLinks :=
      [{ href := some "/blogs?page=2", text := some "2" },
       { href := some "/blogs?page=7", text := some "7" },
       { href := some "/blogs?page=3", text := some "3" }] }

/-- Witness for C7: on the concrete page the resolver picks the link with
the maximal page number and resolves it against the base url. -/
theorem c7_witness :
    ∃ top, top ∈ c7page.pageLinks.filter pageNumberFilter
      ∧ findLastPage c7page = some (resolvePaginationHref (top.href.getD ""))
      ∧ ∀ l ∈ c7page.pageLinks.filter pageNumberFilter, linkNum l ≤ linkNum top :=
  (c7_pagination_max_fallback c7page (by decide)).2 (by decide)

/-!
## Content cleaning (`WebScraperService.cleanArticleContent`, part_002
lines 353-370)

The service loads the extracted HTML into cheerio, removes
`script, style, nav, header, footer, aside, .advertisement, .ads` elements,
takes the document text (`$.text()`, which decodes character references),
collapses whitespace runs to single spaces, collapses blank lines, and trims.
The cheerio/parse5 behaviour is modelled on a character-level HTML fragment:
tags with attributes (quoted values may contain `>`), raw-text elements
(`script`/`style`, whose content is never parsed as markup), subtree removal
for the removed elements and classes, comments/doctype, and the common named
character references.
-/

/-- Double-quote character. -/
def dq : Char := Char.ofNat 34

/-- Single-quote character. -/
def sq : Char := Char.ofNat 39

/-- Elements whose content is raw text and which the cleaner removes
entirely (`script`, `style`). -/
def rawTextTags : List (List Char) := ["script".toList, "style".toList]

/-- Element names removed with their subtrees (`nav, header, footer, aside`). -/
def removedTags : List (List Char) :=
  ["nav".toList, "header".toList, "footer".toList, "aside".toList]

/-- Class names removed with their subtrees (`.advertisement`, `.ads`). -/
def removedClasses : List (List Char) := ["advertisement".toList, "ads".toList]

/-- Decode a character reference at the front of the list: the common named
references (`&lt; &gt; &amp; &quot; &#39; &apos;`); anything else is left as
literal text. -/
def entityAt (l : List Char) : Option (Char × List Char) :=
  if startsChars "&lt;".toList l then some ('<', l.drop 4)
  else if startsChars "&gt;".toList l then some ('>', l.drop 4)
  else if startsChars "&amp;".toList l then some ('&', l.drop 5)
  else if startsChars "&quot;".toList l then some (dq, l.drop 6)
  else if startsChars "&#39;".toList l then some (sq, l.drop 5)
  else if startsChars "&apos;".toList l then some (sq, l.drop 6)
  else none

/-- HTML tag-name character. -/
def isTagNameChar (c : Char) : Bool := c.isAlpha || c.isDigit

/-- Consume the attribute region of a tag up to and including the closing
`>`, skipping quoted values (which may contain `>`): returns the raw
attribute characters and the remainder after the `>`. -/
def tagEnd : Nat → List Char → List Char × List Char
  | 0, l => ([], l)
  | _ + 1, [] => ([], [])
  | fuel + 1, c :: cs =>
    if c = '>' then ([], cs)
    else if c = dq || c = sq then
      let inner := cs.takeWhile (fun d => d != c)
      match cs.dropWhile (fun d => d != c) with
      | [] => (c :: inner, [])
      | _ :: rest2 =>
        let r := tagEnd fuel rest2
        (c :: (inner ++ c :: r.1), r.2)
    else
      let r := tagEnd fuel cs
      (c :: r.1, r.2)

/-- A parsed tag. -/
structure TagInfo where
  isClose : Bool
  name : List Char
  attrs : List Char
  rest : List Char
deriving Repr, DecidableEq

/-- Parse a tag whose `<` has just been consumed: `</name …>` or
`<name …>`; `none` when the `<` does not begin a tag (not followed by `/`
plus a name or by a letter). -/
def parseTag (l : List Char) : Option TagInfo :=
  match l with
  | '/' :: rest =>
    let name := rest.takeWhile isTagNameChar
    if name.isEmpty then none
    else
      let r := tagEnd rest.length (rest.dropWhile isTagNameChar)
      some { isClose := true, name := name.map Char.toLower, attrs := r.1, rest := r.2 }
  | c :: _ =>
    if c.isAlpha then
      let name := l.takeWhile isTagNameChar
      let r := tagEnd l.length (l.dropWhile isTagNameChar)
      some { isClose := false, name := name.map Char.toLower, attrs := r.1, rest := r.2 }
    else none
  | [] => none

/-- Extract the value of a `class` attribute from a raw attribute region:
`class = "v"`, `class = 'v'` or an unquoted value. -/
def classValue : Nat → List Char → Option (List Char)
  | 0, _ => none
  | _ + 1, [] => none
  | fuel + 1, c :: cs =>
    if startsCI "class".toList (c :: cs) then
      match ((c :: cs).drop 5).dropWhile jsWs with
      | e :: r =>
        if e = '=' then
          match r.dropWhile jsWs with
          | q :: v =>
            if q = dq || q = sq then some (v.takeWhile (fun d => d != q))
            else some ((q :: v).takeWhile (fun d => !(jsWs d)))
          | [] => some []
        else classValue fuel cs
      | [] => none
    else classValue fuel cs

/-- Does the selector list `script, style, nav, header, footer, aside,
.advertisement, .ads` remove this element (beyond the raw-text tags, which
are handled separately)? -/
def elementRemoved (name attrs : List Char) : Bool :=
  removedTags.contains name
  || (wordsAux [] ((classValue attrs.length attrs).getD [])).any
      (fun t => removedClasses.contains t)

/-- Remainder after a matching close tag `</name …>` at the front of the
list; `none` when the front is not a close tag of `name`. -/
def closeTagRemainder (name : List Char) (l : List Char) : Option (List Char) :=
  if startsCI ('<' :: '/' :: name) l then
    match l.drop (2 + name.length) with
    | [] => some []
    | d :: rem =>
      if d = '>' then some rem
      else if jsWs d || d = '/' then
        some (((d :: rem).dropWhile (fun e => e != '>')).drop 1)
      else none
  else none

/-- Remainder after an opening tag `<name …>` at the front of the list;
`none` when the front is not an opening tag of `name`. -/
def openTagRemainder (name : List Char) (l : List Char) : Option (List Char) :=
  if startsCI ('<' :: name) l then
    match l.drop (1 + name.length) with
    | [] => none
    | d :: rem =>
      if d = '>' then some rem
      else if jsWs d || d = '/' then
        some (((d :: rem).dropWhile (fun e => e != '>')).drop 1)
      else none
  else none

/-- Skip the raw-text content of a `script`/`style` element up to and
including its close tag (the whole element is removed). -/
def skipRawText (name : List Char) : Nat → List Char → List Char
  | 0, l => l
  | _ + 1, [] => []
  | fuel + 1, c :: cs =>
    match closeTagRemainder name (c :: cs) with
    | some rem => rem
    | none => skipRawText name fuel cs

/-- Skip the subtree of a removed element: scan for close tags of the same
name (tracking nesting of same-named opens) and return the remainder after
the matching close. -/
def skipSubtree (name : List Char) : Nat → Nat → List Char → List Char
  | 0, _, l => l
  | _ + 1, _, [] => []
  | fuel + 1, depth, c :: cs =>
    match closeTagRemainder name (c :: cs) with
    | some rem => if depth ≤ 1 then rem else skipSubtree name fuel (depth - 1) rem
    | none =>
      match openTagRemainder name (c :: cs) with
      | some rem => skipSubtree name fuel (depth + 1) rem
      | none => skipSubtree name fuel depth cs

/-- Text extraction after element removal: walk the markup, drop tags,
remove the `script/style/nav/header/footer/aside/.advertisement/.ads`
subtrees, decode character references, and keep everything else
(`$('…').remove()` followed by `$.text()`). -/
def extractText : Nat → List Char → List Char
  | 0, _ => []
  | _ + 1, [] => []
  | fuel + 1, c :: cs =>
    if c = '<' then
      match parseTag cs with
      | some t =>
        if t.isClose then extractText fuel t.rest
        else if rawTextTags.contains t.name then
          extractText fuel (skipRawText t.name t.rest.length t.rest)
        else if elementRemoved t.name t.attrs then
          extractText fuel (skipSubtree t.name t.rest.length 1 t.rest)
        else extractText fuel t.rest
      | none =>
        match cs with
        | '!' :: r => extractText fuel ((r.dropWhile (fun e => e != '>')).drop 1)
        | _ => c :: extractText fuel cs
    else if c = '&' then
      match entityAt (c :: cs) with
      | some (d, rem) => d :: extractText fuel rem
      | none => c :: extractText fuel cs
    else c :: extractText fuel cs

/-- `replace(/\s+/g, ' ')`: collapse every whitespace run into a single
space (the flag records whether the previous character was part of a run). -/
def wsToSpace : Bool → List Char → List Char
  | _, [] => []
  | prevWs, c :: cs =>
    if jsWs c then
      if prevWs then wsToSpace true cs else ' ' :: wsToSpace true cs
    else c :: wsToSpace false cs

/-- Index of the last newline of a list, if any. -/
def lastNlIdx : List Char → Option Nat
  | [] => none
  | c :: cs =>
    match lastNlIdx cs with
    | some k => some (k + 1)
    | none => if c = Char.ofNat 10 then some 0 else none

/-- One attempted match of `\n\s*\n` after an initial newline: the greedy
`\s*` with backtracking consumes the run up to the last newline inside the
maximal whitespace run; returns the remainder after that newline. -/
def nlRunRemainder (cs : List Char) : Option (List Char) :=
  match lastNlIdx (cs.takeWhile jsWs) with
  | some k => some (cs.drop (k + 1))
  | none => none

/-- `replace(/\n\s*\n/g, '\n\n')` (a no-op after `wsToSpace`, which leaves
no newline, but kept for fidelity to the source pipeline). -/
def replaceNlNl : Nat → List Char → List Char
  | 0, l => l
  | _ + 1, [] => []
  | fuel + 1, c :: cs =>
    if c = Char.ofNat 10 then
      match nlRunRemainder cs with
      | some rem => Char.ofNat 10 :: Char.ofNat 10 :: replaceNlNl fuel rem
      | none => c :: replaceNlNl fuel cs
    else c :: replaceNlNl fuel cs

/-- `WebScraperService.cleanArticleContent` (lines 353-370): cheerio load,
removal of non-content elements, text extraction, whitespace collapsing,
blank-line collapsing, trim. -/
def cleanArticleContent (content : String) : String :=
  let t := extractText content.toList.length content.toList
  let u := wsToSpace false t
  let v := replaceNlNl u.length u
  String.mk (trimBoth v)

/-!
## C8: idempotence analysis of `cleanArticleContent`
-/

/-- Every whitespace character of the list is a plain space. -/
def AllWsSpace (l : List Char) : Prop := ∀ c ∈ l, jsWs c = true → c = ' '

/-- No two adjacent whitespace characters. -/
def noAdjWs : List Char → Bool
  | [] => true
  | [_] => true
  | a :: b :: t => (!(jsWs a && jsWs b)) && noAdjWs (b :: t)

theorem noAdjWs_tail {a : Char} {t : List Char} (h : noAdjWs (a :: t) = true) :
    noAdjWs t = true := by
  cases t with
  | nil => rfl
  | cons b r =>
    simp only [noAdjWs, Bool.and_eq_true] at h
    exact h.2

theorem noAdjWs_pair {a b : Char} {t : List Char}
    (h : noAdjWs (a :: b :: t) = true) (ha : jsWs a = true) : jsWs b = false := by
  simp only [noAdjWs, Bool.and_eq_true] at h
  obtain ⟨h1, -⟩ := h
  cases hb : jsWs b
  · rfl
  · rw [ha, hb] at h1
    simp at h1

theorem extractText_id :
    ∀ (fuel : Nat) (l : List Char), (∀ c ∈ l, c ≠ '<' ∧ c ≠ '&') →
      l.length ≤ fuel → extractText fuel l = l := by
  intro fuel
  induction fuel with
  | zero =>
    intro l _ hlen
    rw [Nat.le_zero, List.length_eq_zero] at hlen
    subst hlen
    rfl
  | succ n ih =>
    intro l hl hlen
    cases l with
    | nil => rfl
    | cons c cs =>
      obtain ⟨hc1, hc2⟩ := hl c (by simp)
      simp only [extractText]
      rw [if_neg hc1, if_neg hc2]
      rw [ih cs (fun x hx => hl x (by simp [hx]))
        (by simpa using Nat.le_of_succ_le_succ (by simpa using hlen))]

theorem wsToSpace_allWsSpace : ∀ (l : List Char) (b : Bool), AllWsSpace (wsToSpace b l) := by
  intro l
  induction l with
  | nil => intro b c hc; cases hc
  | cons d ds ih =>
    intro b c hc hws
    simp only [wsToSpace] at hc
    by_cases hd : jsWs d = true
    · rw [if_pos hd] at hc
      cases b with
      | true => exact ih true c hc hws
      | false =>
        simp only [Bool.false_eq_true, if_false] at hc
        rcases List.mem_cons.mp hc with rfl | hc2
        · rfl
        · exact ih true c hc2 hws
    · rw [if_neg hd] at hc
      rcases List.mem_cons.mp hc with rfl | hc2
      · exact absurd hws hd
      · exact ih false c hc2 hws

theorem wsToSpace_true_eq : ∀ l : List Char,
    wsToSpace true l = wsToSpace false (l.dropWhile jsWs) := by
  intro l
  induction l with
  | nil => rfl
  | cons d ds ih =>
    by_cases hd : jsWs d = true <;>
      simp [wsToSpace, List.dropWhile_cons, hd, ih]

theorem wsToSpace_true_head : ∀ (l : List Char) (c : Char) (cs : List Char),
    wsToSpace true l = c :: cs → jsWs c = false := by
  intro l
  induction l with
  | nil => intro c cs h; cases h
  | cons d ds ih =>
    intro c cs h
    simp only [wsToSpace] at h
    by_cases hd : jsWs d = true
    · rw [if_pos hd] at h
      exact ih c cs h
    · rw [if_neg hd] at h
      obtain ⟨rfl, -⟩ := List.cons.inj h
      exact Bool.not_eq_true _ ▸ (by simpa using hd)

theorem length_dropWhileWs_le (l : List Char) : (l.dropWhile jsWs).length ≤ l.length := by
  induction l with
  | nil => simp
  | cons d ds ih =>
    rw [List.dropWhile_cons]
    by_cases hd : jsWs d = true
    · rw [if_pos hd]
      exact Nat.le_trans ih (Nat.le_succ _)
    · rw [if_neg hd]

theorem wsToSpace_noAdj : ∀ (n : Nat) (l : List Char), l.length ≤ n →
    noAdjWs (wsToSpace false l) = true := by
  intro n
  induction n with
  | zero =>
    intro l hlen
    rw [Nat.le_zero, List.length_eq_zero] at hlen
    subst hlen
    rfl
  | succ n ih =>
    intro l hlen
    cases l with
    | nil => rfl
    | cons d ds =>
      have hdslen : ds.length ≤ n := Nat.le_of_succ_le_succ (by simpa using hlen)
      simp only [wsToSpace, Bool.false_eq_true, if_false]
      by_cases hd : jsWs d = true
      · rw [if_pos hd]
        cases hx : wsToSpace true ds with
        | nil => rfl
        | cons e es =>
          have he : jsWs e = false := wsToSpace_true_head ds e es hx
          have hrec : noAdjWs (e :: es) = true := by
            rw [← hx, wsToSpace_true_eq]
            exact ih (ds.dropWhile jsWs)
              (Nat.le_trans (length_dropWhileWs_le ds) hdslen)
          simp only [noAdjWs, Bool.and_eq_true]
          refine ⟨?_, hrec⟩
          rw [he]
          simp
      · rw [if_neg hd]
        cases hx : wsToSpace false ds with
        | nil => rfl
        | cons e es =>
          have hrec : noAdjWs (e :: es) = true := hx ▸ ih ds hdslen
          simp only [noAdjWs, Bool.and_eq_true]
          refine ⟨?_, hrec⟩
          cases hde : jsWs d
          · simp
          · exact absurd hde (by simpa using hd)

theorem replaceNlNl_id : ∀ (fuel : Nat) (l : List Char),
    Char.ofNat 10 ∉ l → replaceNlNl fuel l = l := by
  intro fuel
  induction fuel with
  | zero => intro l _; rfl
  | succ n ih =>
    intro l hl
    cases l with
    | nil => rfl
    | cons c cs =>
      have hc : ¬ c = Char.ofNat 10 := fun h => hl (h ▸ List.mem_cons_self c cs)
      simp only [replaceNlNl]
      rw [if_neg hc, ih cs (fun h => hl (List.mem_cons_of_mem c h))]

theorem mem_of_mem_trimRight : ∀ (l : List Char) (c : Char), c ∈ trimRight l → c ∈ l := by
  intro l
  induction l with
  | nil => intro c hc; cases hc
  | cons d ds ih =>
    intro c hc
    simp only [trimRight] at hc
    cases htr : trimRight ds with
    | nil =>
      rw [htr] at hc
      by_cases hd : jsWs d = true
      · rw [if_pos hd] at hc; cases hc
      · rw [if_neg hd] at hc
        rcases List.mem_cons.mp hc with rfl | hc2
        · exact List.mem_cons_self c ds
        · cases hc2
    | cons e es =>
      rw [htr] at hc
      rcases List.mem_cons.mp hc with rfl | hc2
      · exact List.mem_cons_self c ds
      · exact List.mem_cons_of_mem d (ih c (htr ▸ hc2))

theorem trimRight_head_eq : ∀ (c : Char) (cs : List Char) (d : Char) (ds : List Char),
    trimRight (c :: cs) = d :: ds → d = c := by
  intro c cs d ds h
  simp only [trimRight] at h
  cases htr : trimRight cs with
  | nil =>
    rw [htr] at h
    by_cases hc : jsWs c = true
    · rw [if_pos hc] at h; cases h
    · rw [if_neg hc] at h
      exact (List.cons.inj h).1.symm
  | cons e es =>
    rw [htr] at h
    exact (List.cons.inj h).1.symm

theorem trimRight_last_not_ws : ∀ (l : List Char) (c : Char),
    (trimRight l).getLast? = some c → jsWs c = false := by
  intro l
  induction l with
  | nil => intro c hc; cases hc
  | cons d ds ih =>
    intro c hc
    simp only [trimRight] at hc
    cases htr : trimRight ds with
    | nil =>
      rw [htr] at hc
      by_cases hd : jsWs d = true
      · rw [if_pos hd] at hc; cases hc
      · rw [if_neg hd] at hc
        simp only [List.getLast?_singleton, Option.some.injEq] at hc
        subst hc
        simpa using hd
    | cons e es =>
      rw [htr] at hc
      rw [List.getLast?_cons_cons] at hc
      exact ih c (htr ▸ hc)

theorem trimRight_noAdj : ∀ l : List Char, noAdjWs l = true →
    noAdjWs (trimRight l) = true := by
  intro l
  induction l with
  | nil => intro _; rfl
  | cons d ds ih =>
    intro h
    simp only [trimRight]
    cases htr : trimRight ds with
    | nil =>
      by_cases hd : jsWs d = true
      · rw [if_pos hd]; rfl
      · rw [if_neg hd]; rfl
    | cons e es =>
      have hds : noAdjWs (trimRight ds) = true := ih (noAdjWs_tail h)
      rw [htr] at hds
      cases ds with
      | nil => cases htr
      | cons f fs =>
        have hef : e = f := trimRight_head_eq f fs e es htr
        subst hef
        simp only [noAdjWs, Bool.and_eq_true]
        refine ⟨?_, hds⟩
        simp only [noAdjWs, Bool.and_eq_true] at h
        exact h.1

theorem trimRight_eq_self : ∀ l : List Char,
    (∀ c, l.getLast? = some c → jsWs c = false) → trimRight l = l := by
  intro l
  induction l with
  | nil => intro _; rfl
  | cons d ds ih =>
    intro h
    simp only [trimRight]
    cases ds with
    | nil =>
      have hd : jsWs d = false := h d rfl
      simp [trimRight, hd]
    | cons e es =>
      have hds : trimRight (e :: es) = e :: es := by
        refine ih ?_
        intro c hc
        refine h c ?_
        rw [List.getLast?_cons_cons]
        exact hc
      rw [hds]

theorem mem_of_mem_dropWhileWs : ∀ (l : List Char) (c : Char),
    c ∈ l.dropWhile jsWs → c ∈ l := by
  intro l
  induction l with
  | nil => intro c hc; cases hc
  | cons d ds ih =>
    intro c hc
    rw [List.dropWhile_cons] at hc
    by_cases hd : jsWs d = true
    · rw [if_pos hd] at hc
      exact List.mem_cons_of_mem d (ih c hc)
    · rw [if_neg hd] at hc
      exact hc

theorem dropWhileWs_head : ∀ (l : List Char) (c : Char) (cs : List Char),
    l.dropWhile jsWs = c :: cs → jsWs c = false := by
  intro l
  induction l with
  | nil => intro c cs h; cases h
  | cons d ds ih =>
    intro c cs h
    rw [List.dropWhile_cons] at h
    by_cases hd : jsWs d = true
    · rw [if_pos hd] at h
      exact ih c cs h
    · rw [if_neg hd] at h
      obtain ⟨rfl, -⟩ := List.cons.inj h
      simpa using hd

theorem noAdjWs_dropWhileWs : ∀ l : List Char, noAdjWs l = true →
    noAdjWs (l.dropWhile jsWs) = true := by
  intro l
  induction l with
  | nil => intro _; rfl
  | cons d ds ih =>
    intro h
    rw [List.dropWhile_cons]
    by_cases hd : jsWs d = true
    · rw [if_pos hd]
      exact ih (noAdjWs_tail h)
    · rw [if_neg hd]
      exact h

theorem wsToSpace_id : ∀ l : List Char, AllWsSpace l → noAdjWs l = true →
    wsToSpace false l = l := by
  intro l
  induction l with
  | nil => intro _ _; rfl
  | cons d ds ih =>
    intro hall hadj
    simp only [wsToSpace, Bool.false_eq_true, if_false]
    by_cases hd : jsWs d = true
    · rw [if_pos hd]
      have hds : ' ' :: wsToSpace true ds = d :: ds := by
        have hde : d = ' ' := hall d (List.mem_cons_self d ds) hd
        rw [hde]
        congr 1
        rw [wsToSpace_true_eq]
        cases ds with
        | nil => rfl
        | cons e es =>
          have he : jsWs e = false := noAdjWs_pair hadj hd
          rw [List.dropWhile_cons, if_neg (by simp [he])]
          exact ih (fun c hc => hall c (List.mem_cons_of_mem d hc)) (noAdjWs_tail hadj)
      exact hds
    · rw [if_neg hd]
      rw [ih (fun c hc => hall c (List.mem_cons_of_mem d hc)) (noAdjWs_tail hadj)]

theorem no_nl_of_allWsSpace {l : List Char} (h : AllWsSpace l) : Char.ofNat 10 ∉ l := by
  intro hmem
  have := h (Char.ofNat 10) hmem (by decide)
  exact absurd this (by decide)

theorem mk_toList (l : List Char) : (String.mk l).toList = l := rfl

theorem mk_toList_self (s : String) : String.mk s.toList = s := by
  cases s
  rfl

/-- The collapse-and-trim tail of `cleanArticleContent`. -/
def collapseTrim (t : List Char) : List Char :=
  trimBoth (replaceNlNl (wsToSpace false t).length (wsToSpace false t))

theorem cleanArticleContent_eq (x : String) :
    cleanArticleContent x =
      String.mk (collapseTrim (extractText x.toList.length x.toList)) := rfl

theorem collapseTrim_allWsSpace (t : List Char) : AllWsSpace (collapseTrim t) := by
  intro c hc hws
  unfold collapseTrim trimBoth at hc
  rw [replaceNlNl_id _ _ (no_nl_of_allWsSpace (wsToSpace_allWsSpace t false))] at hc
  exact wsToSpace_allWsSpace t false c
    (mem_of_mem_dropWhileWs _ c (mem_of_mem_trimRight _ c hc)) hws

theorem collapseTrim_noAdj (t : List Char) : noAdjWs (collapseTrim t) = true := by
  unfold collapseTrim trimBoth
  rw [replaceNlNl_id _ _ (no_nl_of_allWsSpace (wsToSpace_allWsSpace t false))]
  exact trimRight_noAdj _ (noAdjWs_dropWhileWs _
    (wsToSpace_noAdj t.length t (Nat.le_refl _)))

theorem collapseTrim_head (t : List Char) :
    ∀ c cs, collapseTrim t = c :: cs → jsWs c = false := by
  intro c cs h
  unfold collapseTrim trimBoth at h
  rw [replaceNlNl_id _ _ (no_nl_of_allWsSpace (wsToSpace_allWsSpace t false))] at h
  cases hdw : (wsToSpace false t).dropWhile jsWs with
  | nil =>
    rw [hdw] at h
    cases h
  | cons e es =>
    rw [hdw] at h
    have : c = e := trimRight_head_eq e es c cs h
    subst this
    exact dropWhileWs_head _ c es hdw

theorem collapseTrim_last (t : List Char) :
    ∀ c, (collapseTrim t).getLast? = some c → jsWs c = false := by
  intro c h
  unfold collapseTrim trimBoth at h
  rw [replaceNlNl_id _ _ (no_nl_of_allWsSpace (wsToSpace_allWsSpace t false))] at h
  exact trimRight_last_not_ws _ c h

theorem collapseTrim_id (v : List Char) (hall : AllWsSpace v)
    (hadj : noAdjWs v = true)
    (hhead : ∀ c cs, v = c :: cs → jsWs c = false)
    (hlast : ∀ c, v.getLast? = some c → jsWs c = false) :
    collapseTrim v = v := by
  unfold collapseTrim
  rw [wsToSpace_id v hall hadj]
  rw [replaceNlNl_id _ _ (no_nl_of_allWsSpace hall)]
  unfold trimBoth
  have hdw : v.dropWhile jsWs = v := by
    cases v with
    | nil => rfl
    | cons c cs =>
      rw [List.dropWhile_cons, if_neg (by simp [hhead c cs rfl])]
  rw [hdw]
  exact trimRight_eq_self v hlast

/-- Counterexample to C8 as stated: `$.text()` decodes character references,
so a document whose text encodes markup (here `&lt;b&gt;hello&lt;/b&gt;`)
cleans to a markup string, and cleaning that output again re-parses the
markup and strips it — `clean(clean(x)) ≠ clean(x)`. -/
theorem c8_counterexample :
    cleanArticleContent "&lt;b&gt;hello&lt;/b&gt;" = "<b>hello</b>"
    ∧ cleanArticleContent (cleanArticleContent "&lt;b&gt;hello&lt;/b&gt;") = "hello"
    ∧ cleanArticleContent (cleanArticleContent "&lt;b&gt;hello&lt;/b&gt;")
        ≠ cleanArticleContent "&lt;b&gt;hello&lt;/b&gt;" := by
  refine ⟨by decide, by decide, by decide⟩

/-- C8 (amended): content cleaning is idempotent on every input whose
cleaned output contains no `<` and no `&` character — i.e. whenever the
cleaned text cannot be re-read as markup or as a character reference;
re-parsing is exactly what the counterexample exploits. -/
theorem c8_clean_idempotent_no_markup (x : String)
    (h : ∀ c ∈ (cleanArticleContent x).toList, c ≠ '<' ∧ c ≠ '&') :
    cleanArticleContent (cleanArticleContent x) = cleanArticleContent x := by
  have hx : cleanArticleContent x =
      String.mk (collapseTrim (extractText x.toList.length x.toList)) := rfl
  have hylist : (cleanArticleContent x).toList =
      collapseTrim (extractText x.toList.length x.toList) := by
    rw [hx]
    rfl
  have hid : extractText (collapseTrim (extractText x.toList.length x.toList)).length
      (collapseTrim (extractText x.toList.length x.toList)) =
      collapseTrim (extractText x.toList.length x.toList) :=
    extractText_id _ _ (by rw [← hylist]; exact h) (Nat.le_refl _)
  calc cleanArticleContent (cleanArticleContent x)
      = String.mk (collapseTrim (extractText (cleanArticleContent x).toList.length
          (cleanArticleContent x).toList)) := rfl
    _ = String.mk
          (collapseTrim (collapseTrim (extractText x.toList.length x.toList))) := by
        rw [hylist, hid]
    _ = String.mk (collapseTrim (extractText x.toList.length x.toList)) := by
        rw [collapseTrim_id _ (collapseTrim_allWsSpace _) (collapseTrim_noAdj _)
          (collapseTrim_head _) (collapseTrim_last _)]
    _ = cleanArticleContent x := hx.symm

/-- Witness for C8 (amended): a markup-free input is a fixed point of a
second cleaning. -/
theorem c8_witness :
    cleanArticleContent (cleanArticleContent "hello   world") =
      cleanArticleContent "hello   world" :=
  c8_clean_idempotent_no_markup "hello   world" (by decide)

/-!
## Article content extraction (`WebScraperService.scrapeArticleContent`,
part_002 lines 231-348)

The browser-side evaluation (lines 248-317) runs the title / content / date
selector cascades and returns
`{ title: title || document.title || 'Untitled', content: content || '', … }`.
The embedding takes the cascade results as inputs: `titleFromSelectors` is
the first non-empty trimmed title-selector match (`""` when none),
`docTitle` is `document.title`, and `rawContent` is the `content` value the
evaluation returned.
-/

/-- The fixed tag vocabulary (lines 377-381). -/
def commonTags : List String :=
  ["ai", "chatbot", "automation", "customer service", "technology",
   "business", "marketing", "support", "communication", "digital",
   "innovation", "software", "platform", "solution", "analytics"]

/-- JavaScript `String.prototype.toLowerCase` (character-wise). -/
def jsToLower (s : String) : String := String.mk (s.toList.map Char.toLower)

/-- `extractTags` (lines 375-384): every vocabulary term occurring as a
substring of the lower-cased concatenation of title and content. -/
def extractTags (title content : String) : List String :=
  let text := jsToLower (title ++ " " ++ content)
  commonTags.filter (fun tag => jsIncludes text tag)

/-- The title fallback of line 313: `title || document.title || 'Untitled'`. -/
def resolveTitle (titleFromSelectors docTitle : String) : String :=
  if titleFromSelectors != "" then titleFromSelectors
  else if docTitle != "" then docTitle
  else "Untitled"

/-- JavaScript `s.substring(0, n)`. -/
def jsSubstringTo (s : String) (n : Nat) : String := String.mk (s.toList.take n)

/-- The pure core of `WebScraperService.scrapeArticleContent`
(lines 319-338), after the page evaluation returned: validate (null when the
resolved title or the raw content is empty), clean the content, reject
cleaned content shorter than 100 characters, then emit the candidate with
the title truncated to 500 characters and the classified tags. -/
def scrapeArticleContent (url titleFromSelectors docTitle rawContent : String) :
    Option CreateArticleData :=
  let title := resolveTitle titleFromSelectors docTitle
  if title == "" || rawContent == "" then none
  else
    let cleanContent := cleanArticleContent rawContent
    if cleanContent.length < 100 then none
    else some { title := jsSubstringTo title 500, content := cleanContent,
                url := url, tags := some (extractTags title cleanContent) }

theorem resolveTitle_ne_empty (ts dt : String) : resolveTitle ts dt ≠ "" := by
  unfold resolveTitle
  by_cases h1 : (ts != "") = true
  · rw [if_pos h1]
    simpa using h1
  · rw [if_neg h1]
    by_cases h2 : (dt != "") = true
    · rw [if_pos h2]
      simpa using h2
    · rw [if_neg h2]
      decide

theorem mk_eq_empty_iff (l : List Char) : String.mk l = "" ↔ l = [] := by
  constructor
  · intro h
    have : (String.mk l).toList = ("" : String).toList := by rw [h]
    simpa using this
  · intro h
    rw [h]

theorem jsSubstringTo_ne_empty {s : String} (h : s ≠ "") (n : Nat) (hn : 0 < n) :
    jsSubstringTo s n ≠ "" := by
  unfold jsSubstringTo
  rw [Ne, mk_eq_empty_iff]
  intro htake
  apply h
  cases hs : s.toList with
  | nil =>
    have := mk_toList_self s
    rw [hs] at this
    exact this.symm ▸ rfl
  | cons c cs =>
    rw [hs] at htake
    cases n with
    | zero => exact absurd hn (by simp)
    | succ m => simp [List.take] at htake

theorem jsSubstringTo_length_le (s : String) (n : Nat) :
    (jsSubstringTo s n).length ≤ n := by
  unfold jsSubstringTo
  show (s.toList.take n).length ≤ n
  simp [List.length_take]

/-- C2: the extractor emits a candidate only when the (resolved) title is
non-empty and the cleaned content has at least 100 characters, and the
emitted content is exactly the cleaned content; whenever the title or the
raw content is empty, or the cleaned content falls below the threshold, it
returns "no result" (`none`) instead of a malformed candidate. -/
theorem c2_extractor_quality_gate (url ts dt raw : String) :
    (∀ cand, scrapeArticleContent url ts dt raw = some cand →
      cand.title ≠ "" ∧ 100 ≤ cand.content.length
      ∧ cand.content = cleanArticleContent raw)
    ∧ ((resolveTitle ts dt = "" ∨ raw = "" ∨ (cleanArticleContent raw).length < 100) →
        scrapeArticleContent url ts dt raw = none) := by
  constructor
  · intro cand hc
    unfold scrapeArticleContent at hc
    by_cases h1 : (resolveTitle ts dt == "" || raw == "") = true
    · rw [if_pos h1] at hc
      cases hc
    · rw [if_neg h1] at hc
      by_cases h2 : (cleanArticleContent raw).length < 100
      · rw [if_pos h2] at hc
        cases hc
      · rw [if_neg h2] at hc
        obtain rfl := Option.some.inj hc
        refine ⟨?_, Nat.le_of_not_lt h2, rfl⟩
        exact jsSubstringTo_ne_empty (resolveTitle_ne_empty ts dt) 500 (by decide)
  · intro h
    unfold scrapeArticleContent
    rcases h with h | h | h
    · exact absurd h (resolveTitle_ne_empty ts dt)
    · rw [if_pos (by simp [h])]
    · by_cases h1 : (resolveTitle ts dt == "" || raw == "") = true
      · rw [if_pos h1]
      · rw [if_neg h1, if_pos h]

/-- A long content string for the extractor witnesses: 120 `a`s. -/
def longContent : String := String.mk (List.replicate 120 'a')

/-- The candidate produced in the C2 witness scenario. -/
def c2cand : CreateArticleData :=
  { title := "Title", content := longContent, url := "u", tags := some [] }

set_option maxRecDepth 8192 in
/-- Witness for C2: a page with a title and 120 characters of content
yields a candidate with non-empty title and content above the threshold,
and the empty-content page yields none. -/
theorem c2_witness :
    scrapeArticleContent "u" "Title" "" longContent = some c2cand
    ∧ c2cand.title ≠ "" ∧ 100 ≤ c2cand.content.length
    ∧ scrapeArticleContent "u" "Title" "" "" = none := by
  refine ⟨by decide, ?_, ?_, ?_⟩
  · exact ((c2_extractor_quality_gate "u" "Title" "" longContent).1 c2cand (by decide)).1
  · exact ((c2_extractor_quality_gate "u" "Title" "" longContent).1 c2cand (by decide)).2.1
  · exact (c2_extractor_quality_gate "u" "Title" "" "").2 (Or.inr (Or.inl rfl))

/-- C9: the title cascade never produces an empty title (the fallback chain
ends in the literal `"Untitled"`), so the title-emptiness branch of the
validation is unreachable: the extractor returns "no result" exactly when
the raw content is empty or the cleaned content is below the threshold; and
every emitted candidate's title is non-empty and at most 500 characters. -/
theorem c9_title_cascade_nonempty :
    (∀ ts dt, resolveTitle ts dt ≠ "")
    ∧ (∀ url ts dt raw, scrapeArticleContent url ts dt raw = none ↔
        (raw = "" ∨ (cleanArticleContent raw).length < 100))
    ∧ (∀ url ts dt raw cand, scrapeArticleContent url ts dt raw = some cand →
        cand.title ≠ "" ∧ cand.title.length ≤ 500) := by
  refine ⟨resolveTitle_ne_empty, ?_, ?_⟩
  · intro url ts dt raw
    constructor
    · intro h
      unfold scrapeArticleContent at h
      by_cases h1 : (resolveTitle ts dt == "" || raw == "") = true
      · left
        have := resolveTitle_ne_empty ts dt
        simp only [Bool.or_eq_true, beq_iff_eq] at h1
        tauto
      · rw [if_neg h1] at h
        by_cases h2 : (cleanArticleContent raw).length < 100
        · exact Or.inr h2
        · rw [if_neg h2] at h
          cases h
    · intro h
      rcases h with h | h
      · exact (c2_extractor_quality_gate url ts dt raw).2 (Or.inr (Or.inl h))
      · exact (c2_extractor_quality_gate url ts dt raw).2 (Or.inr (Or.inr h))
  · intro url ts dt raw cand h
    unfold scrapeArticleContent at h
    by_cases h1 : (resolveTitle ts dt == "" || raw == "") = true
    · rw [if_pos h1] at h
      cases h
    · rw [if_neg h1] at h
      by_cases h2 : (cleanArticleContent raw).length < 100
      · rw [if_pos h2] at h
        cases h
      · rw [if_neg h2] at h
        obtain rfl := Option.some.inj h
        exact ⟨jsSubstringTo_ne_empty (resolveTitle_ne_empty ts dt) 500 (by decide),
          jsSubstringTo_length_le _ 500⟩

/-- The candidate produced in the C9 witness scenario. -/
def c9cand : CreateArticleData :=
  { title := "Untitled", content := longContent, url := "u9", tags := some [] }

set_option maxRecDepth 8192 in
/-- Witness for C9: with no selector match and an empty document title the
resolved title is the literal `"Untitled"`; the emitted candidate's title is
non-empty and within 500 characters; and with empty raw content the result
is none. -/
theorem c9_witness :
    resolveTitle "" "" = "Untitled"
    ∧ scrapeArticleContent "u9" "" "" longContent = some c9cand
    ∧ c9cand.title ≠ "" ∧ c9cand.title.length ≤ 500
    ∧ scrapeArticleContent "u9" "" "" "" = none := by
  refine ⟨by decide, by decide, ?_, ?_, ?_⟩
  · exact (c9_title_cascade_nonempty.2.2 "u9" "" "" longContent c9cand (by decide)).1
  · exact (c9_title_cascade_nonempty.2.2 "u9" "" "" longContent c9cand (by decide)).2
  · exact (c9_title_cascade_nonempty.2.1 "u9" "" "" "").mpr (Or.inl rfl)

end BeyondChats
